import Mathlib

/-!
Verification development for the institutional ownership estimation engine
(`src/etl/processors/holdings.py` and `src/etl/processors/ratios.py`).

The pandas dataframes of the source are embedded as lists of typed rows.
Security codes and markets are numeric identifiers in the source data
("2330", "TWSE" as a small enumeration); they are modelled as `Nat`.
Share counts and daily net flows are share quantities (the source stores
them as floats but they are integral share counts, and the spec fixes
"shares are signed integers"); they are modelled as `Int`.  Percentage
ratios are modelled as exact rationals `ℚ`.

Column operations of pandas (`cumsum`, `ffill`, `fillna`, `where`,
`diff(periods=w)`, stable sort, `groupby(...).apply`, left `merge`) are
embedded as the list functions below, and each source function is a direct
transcription over those primitives.
-/

namespace Stocker

/-- One row of a per-exchange ownership snapshot frame (TWSE or TPEX
foreign-holdings data): total shares outstanding and the official foreign
ratio are nullable. -/
structure SnapRow where
  code : Nat
  market : Nat
  date : Nat
  total_shares : Option Int
  foreign_ratio : Option ℚ
deriving Repr, DecidableEq, Inhabited

/-- One row of the daily institutional flows frame: signed net share counts
for the trust and dealer classes. -/
structure FlowRow where
  code : Nat
  market : Nat
  date : Nat
  trust_net : Int
  dealer_net : Int
deriving Repr, DecidableEq, Inhabited

/-- One row of the baseline calibration frame: known-true trust and dealer
share counts at a (security, date) anchor. -/
structure BaseRow where
  code : Nat
  date : Nat
  trust_shares_base : Option Int
  dealer_shares_base : Option Int
deriving Repr, DecidableEq, Inhabited

/-! Pandas column primitives. -/

/-- Running cumulative sum starting from an accumulator (pandas `cumsum`). -/
def cumsumFrom (acc : Int) : List Int → List Int
  | [] => []
  | x :: xs => (acc + x) :: cumsumFrom (acc + x) xs

/-- Pandas `Series.cumsum`. -/
def cumsum (xs : List Int) : List Int := cumsumFrom 0 xs

/-- Forward fill carrying a last-seen value (pandas `ffill`). -/
def ffillFrom {α : Type} (last : Option α) : List (Option α) → List (Option α)
  | [] => []
  | x :: xs =>
    match x with
    | some v => some v :: ffillFrom (some v) xs
    | none => last :: ffillFrom last xs

/-- Pandas `Series.ffill`: every null entry is replaced by the most recent
earlier non-null entry, and entries before the first non-null one stay null. -/
def ffill {α : Type} (xs : List (Option α)) : List (Option α) := ffillFrom none xs

/-- Pandas `Series.fillna`. -/
def fillna {α : Type} (v : α) (xs : List (Option α)) : List α :=
  xs.map (fun x => x.getD v)

/-- Pandas `Series.where(mask)`: keep the value where the mask holds,
null elsewhere. -/
def maskWhere {α : Type} (xs : List α) (mask : List Bool) : List (Option α) :=
  List.zipWith (fun x b => if b then some x else none) xs mask

/-- Three-column pointwise combination. -/
def zipWith3 {α β γ δ : Type} (f : α → β → γ → δ) : List α → List β → List γ → List δ
  | a :: as, b :: bs, c :: cs => f a b c :: zipWith3 f as bs cs
  | _, _, _ => []

/-- Insert into a sorted list, before the first element it compares `le` to
(keeps equal keys in arrival order). -/
def insertLe {α : Type} (le : α → α → Bool) (x : α) : List α → List α
  | [] => [x]
  | y :: ys => if le x y then x :: y :: ys else y :: insertLe le x ys

/-- Stable sort by a boolean comparison (pandas `sort_values`). -/
def sortBy {α : Type} (le : α → α → Bool) : List α → List α
  | [] => []
  | x :: xs => insertLe le x (sortBy le xs)

/-- Distinct keys in order of first appearance, with an accumulator of keys
already emitted. -/
def dedupFrom (seen : List Nat) : List Nat → List Nat
  | [] => []
  | c :: cs => if c ∈ seen then dedupFrom seen cs else c :: dedupFrom (c :: seen) cs

/-- Distinct keys of a list in order of first appearance. -/
def dedupKeys (l : List Nat) : List Nat := dedupFrom [] l

/-- Pandas `df.groupby(key, group_keys=False).apply(f)`: apply `f` to each
key's rows (in row order) and concatenate the results group by group.  The
frames handed to `groupby` in the source are already sorted by the key, so
first-appearance group order coincides with pandas' sorted group order. -/
def groupApply {α β : Type} (cf : α → Nat) (f : List α → List β) (rows : List α) : List β :=
  (dedupKeys (rows.map cf)).flatMap (fun c => f (rows.filter (fun r => cf r == c)))

/-- Lexicographic (code, date) sort key used by `sort_values(["code", "date"])`. -/
def keyLe (c₁ d₁ c₂ d₂ : Nat) : Bool :=
  Nat.blt c₁ c₂ || (c₁ == c₂ && Nat.ble d₁ d₂)

/-! `build_foreign_master` (holdings.py lines 6-22). -/

/-- Row comparison for sorting snapshot rows by (code, date). -/
def snapLe (a b : SnapRow) : Bool := keyLe a.code a.date b.code b.date

/-- Reattach the forward-filled `total_shares` and `foreign_ratio` columns to
a group of snapshot rows. -/
def setSnapCols : List SnapRow → List (Option Int) → List (Option ℚ) → List SnapRow
  | r :: rs, t :: ts, q :: qs =>
      { r with total_shares := t, foreign_ratio := q } :: setSnapCols rs ts qs
  | _, _, _ => []

/-- Per-code group body of `build_foreign_master`: `groupby(level=0).ffill()`
forward-fills every data column within the group. -/
def ffillSnap (g : List SnapRow) : List SnapRow :=
  setSnapCols g (ffill (g.map (fun r => r.total_shares)))
    (ffill (g.map (fun r => r.foreign_ratio)))

/-- `build_foreign_master` (holdings.py lines 6-22): concatenate the TWSE and
TPEX snapshot frames, sort by (code, date), and forward-fill each column
within each security's rows. -/
def build_foreign_master (twse tpex : List SnapRow) : List SnapRow :=
  let all_df := twse ++ tpex
  if all_df.isEmpty then all_df
  else groupApply (fun r => r.code) ffillSnap (sortBy snapLe all_df)

/-! `build_estimated_holdings` (holdings.py lines 25-124). -/

/-- A row of the `merged` frame after the two left merges (lines 46-69):
flow fields plus nullable snapshot and baseline fields. -/
structure MRow where
  code : Nat
  market : Nat
  date : Nat
  trust_net : Int
  dealer_net : Int
  total_shares : Option Int
  foreign_ratio : Option ℚ
  trust_shares_base : Option Int
  dealer_shares_base : Option Int
deriving Repr, DecidableEq, Inhabited

/-- The rows a single flow row contributes to a left merge with the foreign
master on (date, code, market): the flow row with null snapshot fields when
it has no match, one copy per match otherwise. -/
def mergeFMRow (fm : List SnapRow) (f : FlowRow) : List MRow :=
  let ms := fm.filter (fun s => s.date == f.date && s.code == f.code && s.market == f.market)
  if ms.isEmpty then
    [⟨f.code, f.market, f.date, f.trust_net, f.dealer_net, none, none, none, none⟩]
  else
    ms.map (fun s =>
      ⟨f.code, f.market, f.date, f.trust_net, f.dealer_net,
        s.total_shares, s.foreign_ratio, none, none⟩)

/-- Left merge of the flows frame with the foreign master on
(date, code, market) (holdings.py lines 46-50): every flow row is kept; a
row with no snapshot match gets null snapshot fields, and a row with
several matches is repeated for each. -/
def mergeFM (flows : List FlowRow) (fm : List SnapRow) : List MRow :=
  flows.flatMap (mergeFMRow fm)

/-- The rows a single merged row contributes to a left merge with the
baseline frame on (date, code). -/
def mergeBaseRow (bl : List BaseRow) (m : MRow) : List MRow :=
  let ms := bl.filter (fun b => b.date == m.date && b.code == m.code)
  if ms.isEmpty then [m]
  else
    ms.map (fun b =>
      { m with trust_shares_base := b.trust_shares_base,
               dealer_shares_base := b.dealer_shares_base })

/-- Left merge with the baseline frame on (date, code) (holdings.py lines
52-69): with no baseline frame (or an empty one) the base columns stay
null for every row. -/
def mergeBase (rows : List MRow) (baseline : Option (List BaseRow)) : List MRow :=
  match baseline with
  | none => rows
  | some bl =>
    if bl.isEmpty then rows
    else rows.flatMap (mergeBaseRow bl)

/-- Row comparison for sorting merged rows by (code, date) (line 71). -/
def mrowLe (a b : MRow) : Bool := keyLe a.code a.date b.code b.date

/-- Line 72: `merged["total_shares"] = to_numeric(...).fillna(0.0)`. -/
def fillTotal (rows : List MRow) : List MRow :=
  rows.map (fun r => { r with total_shares := some (r.total_shares.getD 0) })

/-- A merged row with the columns added by `accumulate` (lines 79-98). -/
structure ERow where
  code : Nat
  market : Nat
  date : Nat
  trust_net : Int
  dealer_net : Int
  total_shares : Option Int
  foreign_ratio : Option ℚ
  trust_shares_base : Option Int
  dealer_shares_base : Option Int
  trust_cum : Int
  dealer_cum : Int
  trust_shares_est : Int
  dealer_shares_est : Int
deriving Repr, DecidableEq, Inhabited

/-- Reattach the cumulative and estimate columns computed by `accumulate` to
the group's rows. -/
def attachEst : List MRow → List Int → List Int → List Int → List Int → List ERow
  | r :: rs, ct :: cts, cd :: cds, et :: ets, ed :: eds =>
      ⟨r.code, r.market, r.date, r.trust_net, r.dealer_net, r.total_shares,
        r.foreign_ratio, r.trust_shares_base, r.dealer_shares_base,
        ct, cd, et, ed⟩ :: attachEst rs cts cds ets eds
  | _, _, _, _, _ => []

/-- The per-security group body `accumulate` (holdings.py lines 74-100),
transcribed column by column: running cumulative sums of the net flows; the
base columns null-filled with 0 and then (vacuously, since no null is left)
forward-filled; the cumulative sums captured at anchor rows and forward-
filled; the estimates `base_ff + (cum - cum_at_base)`; and the fallback to
the plain cumulative sums when every filled base value of the group is 0
for both classes. -/
def accumulate (g : List MRow) : List ERow :=
  let trust_cum := cumsum (g.map (fun r => r.trust_net))
  let dealer_cum := cumsum (g.map (fun r => r.dealer_net))
  let base_trust := fillna 0 (g.map (fun r => r.trust_shares_base))
  let base_dealer := fillna 0 (g.map (fun r => r.dealer_shares_base))
  let base_trust_ff := fillna 0 (ffill (base_trust.map some))
  let base_dealer_ff := fillna 0 (ffill (base_dealer.map some))
  let trust_cum_at_base :=
    fillna 0 (ffill (maskWhere trust_cum (g.map (fun r => r.trust_shares_base.isSome))))
  let dealer_cum_at_base :=
    fillna 0 (ffill (maskWhere dealer_cum (g.map (fun r => r.dealer_shares_base.isSome))))
  let est_t := zipWith3 (fun b c cb => b + (c - cb)) base_trust_ff trust_cum trust_cum_at_base
  let est_d := zipWith3 (fun b c cb => b + (c - cb)) base_dealer_ff dealer_cum dealer_cum_at_base
  let mask_no_base := List.zipWith (fun bt bd => bt == (0 : Int) && bd == (0 : Int))
    base_trust_ff base_dealer_ff
  if mask_no_base.all (fun b => b) then attachEst g trust_cum dealer_cum trust_cum dealer_cum
  else attachEst g trust_cum dealer_cum est_t est_d

/-- One fully computed output row of `build_estimated_holdings`
(`total_shares` after the fill of line 72, `foreign_ratio` after the fill of
line 119). -/
structure RRow where
  code : Nat
  market : Nat
  date : Nat
  trust_net : Int
  dealer_net : Int
  total_shares : Int
  foreign_ratio : ℚ
  trust_shares_base : Option Int
  dealer_shares_base : Option Int
  trust_shares_est : Int
  dealer_shares_est : Int
  trust_ratio_est : ℚ
  dealer_ratio_est : ℚ
  three_inst_ratio_est : ℚ
deriving Repr, DecidableEq, Inhabited

/-- The ratio block of `build_estimated_holdings` (holdings.py lines
104-122): ratios are 0 unless the denominator is strictly positive, in
which case they are `shares_est / total_shares * 100`; `foreign_ratio` is
null-filled with 0 and the three-institution ratio is the exact sum. -/
def ratioStep (rows : List ERow) : List RRow :=
  rows.map (fun e =>
    let denom : Int := e.total_shares.getD 0
    let tr : ℚ := if 0 < denom then (e.trust_shares_est : ℚ) / (denom : ℚ) * 100 else 0
    let dr : ℚ := if 0 < denom then (e.dealer_shares_est : ℚ) / (denom : ℚ) * 100 else 0
    let fr : ℚ := e.foreign_ratio.getD 0
    ⟨e.code, e.market, e.date, e.trust_net, e.dealer_net, denom, fr,
      e.trust_shares_base, e.dealer_shares_base,
      e.trust_shares_est, e.dealer_shares_est, tr, dr, fr + tr + dr⟩)

/-- `build_estimated_holdings` (holdings.py lines 25-124): merge flows with
the foreign master and the baseline table, sort by (code, date), fill the
denominator, run `accumulate` per security, and derive the ratios. -/
def build_estimated_holdings (flows : List FlowRow) (foreign_master : List SnapRow)
    (baseline : Option (List BaseRow)) : List RRow :=
  let merged := mergeBase (mergeFM flows foreign_master) baseline
  ratioStep (groupApply (fun r => r.code) accumulate (fillTotal (sortBy mrowLe merged)))

/-! `add_change_metrics` (ratios.py lines 10-33). -/

/-- Default change-metric windows (`Settings.windows`, config.py lines 43-47). -/
def settings_windows : List Nat := [5, 20, 60, 120]

/-- Map with the element's position, starting the position count at `s`. -/
def mapIdxFrom {α β : Type} (f : Nat → α → β) : Nat → List α → List β
  | _, [] => []
  | i, a :: rest => f i a :: mapIdxFrom f (i + 1) rest

/-- Pandas `Series.diff(periods=w)`: position `i` holds `xs[i] - xs[i-w]`
when `w ≤ i`, null before that. -/
def diffPeriods (w : Nat) (xs : List ℚ) : List (Option ℚ) :=
  mapIdxFrom (fun i _ => if w ≤ i then some (xs.getD i 0 - xs.getD (i - w) 0) else none) 0 xs

/-- An output row of `add_change_metrics`: the ratio row plus one
`three_inst_ratio_change_w` column value per window `w`. -/
structure CRow where
  row : RRow
  changes : List (Nat × Option ℚ)
deriving Repr, DecidableEq, Inhabited

/-- The per-security group body `add_all` (ratios.py lines 25-30): one
`diff(periods=w)` column per window over the group's combined ratio. -/
def addAll (windows : List Nat) (g : List RRow) : List CRow :=
  let cols := windows.map (fun w =>
    (w, diffPeriods w (g.map (fun r => r.three_inst_ratio_est))))
  mapIdxFrom (fun i r => ⟨r, cols.map (fun wc => (wc.1, wc.2.getD i none))⟩) 0 g

/-- `add_change_metrics` (ratios.py lines 10-33): sort by (code, date) and
add the windowed change columns per security; a `none` windows argument
falls back to `settings.windows`. -/
def add_change_metrics (merged : List RRow) (windows : Option (List Nat)) : List CRow :=
  let ws := windows.getD settings_windows
  let sorted := sortBy (fun a b => keyLe a.code a.date b.code b.date) merged
  groupApply (fun r => r.code) (addAll ws) sorted

/-- The whole estimation transform: `build_estimated_holdings` followed by
`add_change_metrics`, as run by the ETL driver. -/
def run_transform (flows : List FlowRow) (foreign_master : List SnapRow)
    (baseline : Option (List BaseRow)) (windows : Option (List Nat)) : List CRow :=
  add_change_metrics (build_estimated_holdings flows foreign_master baseline) windows

/-- Specification-side description of forward fill, written from the spec's
words: the value carried at position `i` is the most recent non-null
observation at a position at most `i`, and null when no observation has
occurred yet (never a later one). -/
def specLastObserved {α : Type} : List (Option α) → Nat → Option α
  | [], _ => none
  | x :: _, 0 => x
  | x :: xs, i + 1 =>
    match specLastObserved xs i with
    | some v => some v
    | none => x

/-- Erase the baseline columns of a merged row, turning it into the row the
security would have had with no anchors at all. -/
def clearBase (r : MRow) : MRow :=
  { r with trust_shares_base := none, dealer_shares_base := none }

/-- Default merged row used with `List.getD`. -/
def mrow0 : MRow := ⟨0, 0, 0, 0, 0, none, none, none, none⟩

/-- Default snapshot row used with `List.getD`. -/
def snap0 : SnapRow := ⟨0, 0, 0, none, none⟩

/-- Default ratio row used with `List.getD`. -/
def rrow0 : RRow := ⟨0, 0, 0, 0, 0, 0, 0, none, none, 0, 0, 0, 0, 0⟩

/-- Default change row used with `List.getD`. -/
def crow0 : CRow := ⟨rrow0, []⟩

/-! Named forms of the intermediate columns of `accumulate`, used to state
lemmas about it. -/

/-- The `trust_cum` column of `accumulate`. -/
def colTrustCum (g : List MRow) : List Int := cumsum (g.map fun r => r.trust_net)

/-- The `dealer_cum` column of `accumulate`. -/
def colDealerCum (g : List MRow) : List Int := cumsum (g.map fun r => r.dealer_net)

/-- The `base_trust_ff` column of `accumulate`. -/
def colBaseTrustFF (g : List MRow) : List Int :=
  fillna 0 (ffill ((fillna 0 (g.map fun r => r.trust_shares_base)).map some))

/-- The `base_dealer_ff` column of `accumulate`. -/
def colBaseDealerFF (g : List MRow) : List Int :=
  fillna 0 (ffill ((fillna 0 (g.map fun r => r.dealer_shares_base)).map some))

/-- The `trust_cum_at_base` column of `accumulate`. -/
def colTrustCumAtBase (g : List MRow) : List Int :=
  fillna 0 (ffill (maskWhere (colTrustCum g) (g.map fun r => r.trust_shares_base.isSome)))

/-- The `dealer_cum_at_base` column of `accumulate`. -/
def colDealerCumAtBase (g : List MRow) : List Int :=
  fillna 0 (ffill (maskWhere (colDealerCum g) (g.map fun r => r.dealer_shares_base.isSome)))

/-- The anchored `trust_shares_est` column of `accumulate` (before the
fallback test). -/
def colEstT (g : List MRow) : List Int :=
  zipWith3 (fun b c cb => b + (c - cb)) (colBaseTrustFF g) (colTrustCum g) (colTrustCumAtBase g)

/-- The anchored `dealer_shares_est` column of `accumulate` (before the
fallback test). -/
def colEstD (g : List MRow) : List Int :=
  zipWith3 (fun b c cb => b + (c - cb)) (colBaseDealerFF g) (colDealerCum g)
    (colDealerCumAtBase g)

/-- The `mask_no_base` column of `accumulate`. -/
def maskNoBase (g : List MRow) : List Bool :=
  List.zipWith (fun bt bd => bt == (0 : Int) && bd == (0 : Int))
    (colBaseTrustFF g) (colBaseDealerFF g)

/-! Helper lemmas about the embedded pandas primitives. -/

theorem cumsumFrom_length (acc : Int) (xs : List Int) :
    (cumsumFrom acc xs).length = xs.length := by
  induction xs generalizing acc with
  | nil => rfl
  | cons x xs ih => simp [cumsumFrom, ih]

theorem cumsum_length (xs : List Int) : (cumsum xs).length = xs.length :=
  cumsumFrom_length 0 xs

theorem cumsumFrom_getD (acc : Int) (xs : List Int) (i : Nat) (hi : i < xs.length) (d : Int) :
    (cumsumFrom acc xs).getD i d = acc + (xs.take (i + 1)).sum := by
  induction xs generalizing acc i with
  | nil => simp at hi
  | cons x xs ih =>
    cases i with
    | zero => simp [cumsumFrom]
    | succ n =>
      have hn : n < xs.length := by simpa using hi
      simp only [cumsumFrom, List.getD_cons_succ, List.take_succ_cons, List.sum_cons]
      rw [ih (acc + x) n hn]
      ring

theorem ffillFrom_length {α : Type} (last : Option α) (xs : List (Option α)) :
    (ffillFrom last xs).length = xs.length := by
  induction xs generalizing last with
  | nil => rfl
  | cons x xs ih => cases x <;> simp [ffillFrom, ih]

theorem ffill_length {α : Type} (xs : List (Option α)) : (ffill xs).length = xs.length :=
  ffillFrom_length none xs

theorem fillna_length {α : Type} (v : α) (xs : List (Option α)) :
    (fillna v xs).length = xs.length := by
  simp [fillna]

theorem maskWhere_length {α : Type} (xs : List α) (mask : List Bool)
    (h : mask.length = xs.length) : (maskWhere xs mask).length = xs.length := by
  simp [maskWhere, h]

theorem zipWith3_length {α β γ δ : Type} (f : α → β → γ → δ) (a : List α) (b : List β)
    (c : List γ) (hb : b.length = a.length) (hc : c.length = a.length) :
    (zipWith3 f a b c).length = a.length := by
  induction a generalizing b c with
  | nil =>
    cases b with
    | nil => cases c <;> rfl
    | cons _ _ => simp at hb
  | cons x xs ih =>
    cases b with
    | nil => simp at hb
    | cons y ys =>
      cases c with
      | nil => simp at hc
      | cons z zs =>
        simp only [List.length_cons] at hb hc
        simp [zipWith3, ih ys zs (by omega) (by omega)]

theorem mapIdxFrom_length {α β : Type} (f : Nat → α → β) (s : Nat) (l : List α) :
    (mapIdxFrom f s l).length = l.length := by
  induction l generalizing s with
  | nil => rfl
  | cons x xs ih => simp [mapIdxFrom, ih]

theorem mapIdxFrom_getD {α β : Type} (f : Nat → α → β) (s : Nat) (l : List α) (i : Nat)
    (hi : i < l.length) (d : β) (a : α) :
    (mapIdxFrom f s l).getD i d = f (s + i) (l.getD i a) := by
  induction l generalizing s i with
  | nil => simp at hi
  | cons x xs ih =>
    cases i with
    | zero => simp [mapIdxFrom]
    | succ n =>
      have hn : n < xs.length := by simpa using hi
      simp only [mapIdxFrom, List.getD_cons_succ]
      rw [ih (s + 1) n hn]
      congr 1
      omega

theorem mapIdxFrom_mem {α β : Type} (f : Nat → α → β) (s : Nat) (l : List α) (y : β)
    (hy : y ∈ mapIdxFrom f s l) : ∃ i, ∃ a ∈ l, y = f i a := by
  induction l generalizing s with
  | nil => simp [mapIdxFrom] at hy
  | cons x xs ih =>
    simp only [mapIdxFrom, List.mem_cons] at hy
    rcases hy with hy | hy
    · exact ⟨s, x, List.mem_cons_self x xs, hy⟩
    · obtain ⟨i, a, ha, rfl⟩ := ih (s + 1) hy
      exact ⟨i, a, List.mem_cons_of_mem x ha, rfl⟩

theorem map_mapIdxFrom {α β γ : Type} (f : Nat → α → β) (h : β → γ) (s : Nat) (l : List α) :
    (mapIdxFrom f s l).map h = mapIdxFrom (fun i a => h (f i a)) s l := by
  induction l generalizing s with
  | nil => rfl
  | cons x xs ih => simp [mapIdxFrom, ih]

theorem mapIdxFrom_const {α β : Type} (g : α → β) (s : Nat) (l : List α) :
    mapIdxFrom (fun _ a => g a) s l = l.map g := by
  induction l generalizing s with
  | nil => rfl
  | cons x xs ih => simp [mapIdxFrom, ih]

theorem insertLe_perm {α : Type} (le : α → α → Bool) (x : α) (l : List α) :
    (insertLe le x l).Perm (x :: l) := by
  induction l with
  | nil => exact List.Perm.refl _
  | cons y ys ih =>
    simp only [insertLe]
    split
    · exact List.Perm.refl _
    · exact (ih.cons y).trans (List.Perm.swap x y ys)

theorem sortBy_perm {α : Type} (le : α → α → Bool) (l : List α) :
    (sortBy le l).Perm l := by
  induction l with
  | nil => exact List.Perm.refl _
  | cons x xs ih => exact (insertLe_perm le x (sortBy le xs)).trans (ih.cons x)

theorem mem_dedupFrom (seen l : List Nat) (x : Nat) :
    x ∈ dedupFrom seen l ↔ x ∈ l ∧ x ∉ seen := by
  induction l generalizing seen with
  | nil => simp [dedupFrom]
  | cons c cs ih =>
    simp only [dedupFrom]
    split
    · rename_i hc
      rw [ih]
      simp only [List.mem_cons]
      constructor
      · rintro ⟨h1, h2⟩
        exact ⟨Or.inr h1, h2⟩
      · rintro ⟨h1 | h1, h2⟩
        · exact absurd (h1 ▸ hc) h2
        · exact ⟨h1, h2⟩
    · rename_i hc
      simp only [List.mem_cons, ih, List.mem_cons]
      constructor
      · rintro (rfl | ⟨h1, h2⟩)
        · exact ⟨Or.inl rfl, hc⟩
        · exact ⟨Or.inr h1, fun hs => h2 (Or.inr hs)⟩
      · rintro ⟨rfl | h1, h2⟩
        · exact Or.inl rfl
        · by_cases hxc : x = c
          · exact Or.inl hxc
          · exact Or.inr ⟨h1, fun hs => hs.elim hxc h2⟩

theorem nodup_dedupFrom (seen l : List Nat) : (dedupFrom seen l).Nodup := by
  induction l generalizing seen with
  | nil => simp [dedupFrom]
  | cons c cs ih =>
    simp only [dedupFrom]
    split
    · exact ih seen
    · refine List.Nodup.cons ?_ (ih (c :: seen))
      intro hc
      rw [mem_dedupFrom] at hc
      exact hc.2 (List.mem_cons_self c seen)

theorem mem_dedupKeys (l : List Nat) (x : Nat) : x ∈ dedupKeys l ↔ x ∈ l := by
  rw [dedupKeys, mem_dedupFrom]
  simp

theorem nodup_dedupKeys (l : List Nat) : (dedupKeys l).Nodup := nodup_dedupFrom [] l

theorem flatMap_eq_nil_of_all {α β : Type} (ks : List α) (G : α → List β)
    (h : ∀ k ∈ ks, G k = []) : ks.flatMap G = [] := by
  induction ks with
  | nil => rfl
  | cons k kt ih =>
    simp only [List.flatMap_cons, h k (List.mem_cons_self k kt), List.nil_append]
    exact ih fun k hk => h k (List.mem_cons_of_mem _ hk)

theorem flatMap_single {α β : Type} [DecidableEq α] (ks : List α) (G : α → List β) (c : α)
    (hnd : ks.Nodup) (hc : c ∈ ks) (hz : ∀ k ∈ ks, k ≠ c → G k = []) :
    ks.flatMap G = G c := by
  induction ks with
  | nil => simp at hc
  | cons k kt ih =>
    rcases List.mem_cons.1 hc with rfl | hc2
    · simp only [List.flatMap_cons]
      have : kt.flatMap G = [] := by
        refine flatMap_eq_nil_of_all kt G fun k2 hk2 => ?_
        refine hz k2 (List.mem_cons_of_mem _ hk2) ?_
        intro rfl2
        exact (List.nodup_cons.1 hnd).1 (rfl2 ▸ hk2)
      rw [this, List.append_nil]
    · have hk : G k = [] := by
        refine hz k (List.mem_cons_self k kt) ?_
        intro rfl2
        exact (List.nodup_cons.1 hnd).1 (rfl2 ▸ hc2)
      simp only [List.flatMap_cons, hk, List.nil_append]
      exact ih (List.nodup_cons.1 hnd).2 hc2 fun k2 hk2 hne =>
        hz k2 (List.mem_cons_of_mem _ hk2) hne

theorem groupApply_filter {α β : Type} (cf : α → Nat) (cg : β → Nat) (f : List α → List β)
    (hf : ∀ g, ∀ y ∈ f g, ∃ r ∈ g, cg y = cf r) (hnil : f [] = []) (m : List α) (c : Nat) :
    (groupApply cf f m).filter (fun y => cg y == c) = f (m.filter (fun r => cf r == c)) := by
  unfold groupApply
  rw [List.filter_flatMap]
  by_cases hc : c ∈ dedupKeys (m.map cf)
  · have hstep : (dedupKeys (m.map cf)).flatMap
        (fun k => (f (m.filter fun r => cf r == k)).filter fun y => cg y == c)
        = (f (m.filter fun r => cf r == c)).filter fun y => cg y == c := by
      refine flatMap_single _ _ c (nodup_dedupKeys _) hc ?_
      intro k _ hkc
      rw [List.filter_eq_nil_iff]
      intro y hy
      obtain ⟨r, hr, hyr⟩ := hf _ y hy
      have hrk : cf r = k := by simpa using (List.mem_filter.1 hr).2
      simp [hyr, hrk, hkc]
    rw [hstep, List.filter_eq_self.2]
    intro y hy
    obtain ⟨r, hr, hyr⟩ := hf _ y hy
    have hrc : cf r = c := by simpa using (List.mem_filter.1 hr).2
    simp [hyr, hrc]
  · have hmc : m.filter (fun r => cf r == c) = [] := by
      rw [List.filter_eq_nil_iff]
      intro r hr hrc
      refine hc ((mem_dedupKeys _ _).2 ?_)
      have : cf r = c := by simpa using hrc
      exact this ▸ List.mem_map_of_mem cf hr
    rw [hmc, hnil]
    refine flatMap_eq_nil_of_all _ _ fun k hk => ?_
    rw [List.filter_eq_nil_iff]
    intro y hy
    obtain ⟨r, hr, hyr⟩ := hf _ y hy
    have hrk : cf r = k := by simpa using (List.mem_filter.1 hr).2
    have hkc : k ≠ c := fun e => hc (e ▸ hk)
    simp [hyr, hrk, hkc]

theorem length_filter_split {α : Type} (p : α → Bool) (l : List α) :
    (l.filter p).length + (l.filter fun a => !(p a)).length = l.length := by
  induction l with
  | nil => rfl
  | cons x xs ih =>
    by_cases hx : p x
    · simp [List.filter_cons, hx, ih, Nat.succ_add]
    · simp only [List.filter_cons, hx, Bool.false_eq_true, if_false, Bool.not_false,
        Bool.not_eq_eq_eq_not, Bool.not_true]
      simp only [List.length_cons, ← ih]
      simp [List.filter_cons, hx]
      omega

theorem sum_filter_lengths {α : Type} (cf : α → Nat) (l : List α) (ks : List Nat)
    (hnd : ks.Nodup) (hcov : ∀ x ∈ l, cf x ∈ ks) :
    (ks.map fun c => (l.filter fun r => cf r == c).length).sum = l.length := by
  induction ks generalizing l with
  | nil =>
    have : l = [] := List.eq_nil_iff_forall_not_mem.2 fun x hx =>
      List.not_mem_nil (cf x) (hcov x hx)
    simp [this]
  | cons k kt ih =>
    have hsplit := length_filter_split (fun r => cf r == k) l
    have htail : ∀ c ∈ kt,
        (l.filter fun r => cf r == c) = ((l.filter fun r => !(cf r == k)).filter
          fun r => cf r == c) := by
      intro c hck
      rw [List.filter_filter]
      refine (List.filter_congr ?_).symm
      intro r _
      by_cases hrc : cf r = c
      · have : c ≠ k := fun e => (List.nodup_cons.1 hnd).1 (e ▸ hck)
        simp [hrc, this]
      · simp [hrc]
    have hrec : (kt.map fun c => (l.filter fun r => cf r == c).length).sum
        = ((l.filter fun r => !(cf r == k)).length) := by
      have := ih (l.filter fun r => !(cf r == k)) (List.nodup_cons.1 hnd).2 ?hcov2
      case hcov2 =>
        intro x hx
        have hxl := (List.mem_filter.1 hx).1
        have hxk : ¬ (cf x = k) := by
          have := (List.mem_filter.1 hx).2
          simpa using this
        rcases List.mem_cons.1 (hcov x hxl) with h | h
        · exact absurd h hxk
        · exact h
      rw [← this]
      congr 1
      refine List.map_congr_left ?_
      intro c hck
      rw [htail c hck]
    simp only [List.map_cons, List.sum_cons, hrec]
    omega

theorem groupApply_length {α β : Type} (cf : α → Nat) (f : List α → List β)
    (hlen : ∀ g, (f g).length = g.length) (l : List α) :
    (groupApply cf f l).length = l.length := by
  unfold groupApply
  rw [List.length_flatMap]
  have : List.map (List.length ∘ fun c => f (l.filter fun r => cf r == c))
      (dedupKeys (l.map cf))
      = List.map (fun c => (l.filter fun r => cf r == c).length) (dedupKeys (l.map cf)) := by
    refine List.map_congr_left fun c _ => ?_
    exact hlen _
  rw [this]
  exact sum_filter_lengths cf l _ (nodup_dedupKeys _) fun x hx =>
    (mem_dedupKeys _ _).2 (List.mem_map_of_mem cf hx)

theorem groupApply_mem {α β : Type} (cf : α → Nat) (f : List α → List β) {Q : β → α → Prop}
    (hmem : ∀ g, ∀ y ∈ f g, ∃ r ∈ g, Q y r) (l : List α) :
    ∀ y ∈ groupApply cf f l, ∃ r ∈ l, Q y r := by
  intro y hy
  unfold groupApply at hy
  rw [List.mem_flatMap] at hy
  obtain ⟨c, _, hyf⟩ := hy
  obtain ⟨r, hr, hq⟩ := hmem _ y hyf
  exact ⟨r, (List.mem_filter.1 hr).1, hq⟩

theorem groupApply_exists {α β : Type} (cf : α → Nat) (f : List α → List β) {Q : β → α → Prop}
    (hmem : ∀ g, ∀ y ∈ f g, ∃ r ∈ g, Q y r) (hlen : ∀ g, (f g).length = g.length)
    (l : List α) (c : Nat) (hx : ∃ r ∈ l, cf r = c) :
    ∃ y ∈ groupApply cf f l, ∃ r ∈ l, cf r = c ∧ Q y r := by
  obtain ⟨r, hr, hrc⟩ := hx
  have hcmem : c ∈ dedupKeys (l.map cf) :=
    (mem_dedupKeys _ _).2 (hrc ▸ List.mem_map_of_mem cf hr)
  have hgrp : r ∈ l.filter fun x => cf x == c :=
    List.mem_filter.2 ⟨hr, by simp [hrc]⟩
  have hne : (f (l.filter fun x => cf x == c)) ≠ [] := by
    intro he
    have h0 := hlen (l.filter fun x => cf x == c)
    rw [he] at h0
    have : (l.filter fun x => cf x == c) = [] := List.eq_nil_of_length_eq_zero h0.symm
    rw [this] at hgrp
    exact List.not_mem_nil r hgrp
  obtain ⟨y, hy⟩ := List.exists_mem_of_ne_nil _ hne
  obtain ⟨r2, hr2, hq⟩ := hmem _ y hy
  have hr2l := (List.mem_filter.1 hr2).1
  have hr2c : cf r2 = c := by simpa using (List.mem_filter.1 hr2).2
  refine ⟨y, ?_, r2, hr2l, hr2c, hq⟩
  unfold groupApply
  rw [List.mem_flatMap]
  exact ⟨c, hcmem, hy⟩

/-! Lemmas about `attachEst` and `accumulate`. -/

theorem accumulate_eq (g : List MRow) :
    accumulate g =
      if (maskNoBase g).all (fun b => b) then
        attachEst g (colTrustCum g) (colDealerCum g) (colTrustCum g) (colDealerCum g)
      else attachEst g (colTrustCum g) (colDealerCum g) (colEstT g) (colEstD g) := rfl

theorem attachEst_length (g : List MRow) (a b c d : List Int) (ha : a.length = g.length)
    (hb : b.length = g.length) (hc : c.length = g.length) (hd : d.length = g.length) :
    (attachEst g a b c d).length = g.length := by
  induction g generalizing a b c d with
  | nil => rfl
  | cons r rs ih =>
    cases a with
    | nil => simp at ha
    | cons a0 as =>
      cases b with
      | nil => simp at hb
      | cons b0 bs =>
        cases c with
        | nil => simp at hc
        | cons c0 cs =>
          cases d with
          | nil => simp at hd
          | cons d0 ds =>
            simp only [List.length_cons] at ha hb hc hd
            simp [attachEst, ih as bs cs ds (by omega) (by omega) (by omega) (by omega)]

theorem attachEst_map_trust_est (g : List MRow) (a b c d : List Int)
    (ha : a.length = g.length) (hb : b.length = g.length) (hc : c.length = g.length)
    (hd : d.length = g.length) :
    (attachEst g a b c d).map (fun e => e.trust_shares_est) = c := by
  induction g generalizing a b c d with
  | nil =>
    cases c with
    | nil => rfl
    | cons _ _ => simp at hc
  | cons r rs ih =>
    cases a with
    | nil => simp at ha
    | cons a0 as =>
      cases b with
      | nil => simp at hb
      | cons b0 bs =>
        cases c with
        | nil => simp at hc
        | cons c0 cs =>
          cases d with
          | nil => simp at hd
          | cons d0 ds =>
            simp only [List.length_cons] at ha hb hc hd
            simp [attachEst, ih as bs cs ds (by omega) (by omega) (by omega) (by omega)]

theorem attachEst_map_dealer_est (g : List MRow) (a b c d : List Int)
    (ha : a.length = g.length) (hb : b.length = g.length) (hc : c.length = g.length)
    (hd : d.length = g.length) :
    (attachEst g a b c d).map (fun e => e.dealer_shares_est) = d := by
  induction g generalizing a b c d with
  | nil =>
    cases d with
    | nil => rfl
    | cons _ _ => simp at hd
  | cons r rs ih =>
    cases a with
    | nil => simp at ha
    | cons a0 as =>
      cases b with
      | nil => simp at hb
      | cons b0 bs =>
        cases c with
        | nil => simp at hc
        | cons c0 cs =>
          cases d with
          | nil => simp at hd
          | cons d0 ds =>
            simp only [List.length_cons] at ha hb hc hd
            simp [attachEst, ih as bs cs ds (by omega) (by omega) (by omega) (by omega)]

theorem attachEst_mem (g : List MRow) (a b c d : List Int) (e : ERow)
    (he : e ∈ attachEst g a b c d) :
    ∃ r ∈ g, e.code = r.code ∧ e.total_shares = r.total_shares := by
  induction g generalizing a b c d with
  | nil => simp [attachEst] at he
  | cons r rs ih =>
    cases a with
    | nil => simp [attachEst] at he
    | cons a0 as =>
      cases b with
      | nil => simp [attachEst] at he
      | cons b0 bs =>
        cases c with
        | nil => simp [attachEst] at he
        | cons c0 cs =>
          cases d with
          | nil => simp [attachEst] at he
          | cons d0 ds =>
            rcases List.mem_cons.1 he with rfl | he2
            · exact ⟨r, List.mem_cons_self r rs, rfl, rfl⟩
            · obtain ⟨r2, hr2, hq⟩ := ih as bs cs ds he2
              exact ⟨r2, List.mem_cons_of_mem r hr2, hq⟩

theorem ffillFrom_map_some {α : Type} (last : Option α) (xs : List α) :
    ffillFrom last (xs.map some) = xs.map some := by
  induction xs generalizing last with
  | nil => rfl
  | cons x xs ih => simp [ffillFrom, ih]

theorem fillna_map_some {α : Type} (v : α) (xs : List α) : fillna v (xs.map some) = xs := by
  induction xs with
  | nil => rfl
  | cons x xs ih => simpa [fillna] using ih

theorem colBaseTrustFF_eq (g : List MRow) :
    colBaseTrustFF g = g.map fun r => r.trust_shares_base.getD 0 := by
  unfold colBaseTrustFF ffill
  rw [ffillFrom_map_some, fillna_map_some]
  simp [fillna, List.map_map]

theorem colBaseDealerFF_eq (g : List MRow) :
    colBaseDealerFF g = g.map fun r => r.dealer_shares_base.getD 0 := by
  unfold colBaseDealerFF ffill
  rw [ffillFrom_map_some, fillna_map_some]
  simp [fillna, List.map_map]

theorem colTrustCum_length (g : List MRow) : (colTrustCum g).length = g.length := by
  simp [colTrustCum, cumsum_length]

theorem colDealerCum_length (g : List MRow) : (colDealerCum g).length = g.length := by
  simp [colDealerCum, cumsum_length]

theorem colBaseTrustFF_length (g : List MRow) : (colBaseTrustFF g).length = g.length := by
  rw [colBaseTrustFF_eq]
  simp

theorem colBaseDealerFF_length (g : List MRow) : (colBaseDealerFF g).length = g.length := by
  rw [colBaseDealerFF_eq]
  simp

theorem colTrustCumAtBase_length (g : List MRow) :
    (colTrustCumAtBase g).length = g.length := by
  simp only [colTrustCumAtBase, fillna_length, ffill_length]
  rw [maskWhere_length]
  · exact colTrustCum_length g
  · simp [colTrustCum_length]

theorem colDealerCumAtBase_length (g : List MRow) :
    (colDealerCumAtBase g).length = g.length := by
  simp only [colDealerCumAtBase, fillna_length, ffill_length]
  rw [maskWhere_length]
  · exact colDealerCum_length g
  · simp [colDealerCum_length]

theorem colEstT_length (g : List MRow) : (colEstT g).length = g.length := by
  unfold colEstT
  rw [zipWith3_length]
  · exact colBaseTrustFF_length g
  · rw [colTrustCum_length, colBaseTrustFF_length]
  · rw [colTrustCumAtBase_length, colBaseTrustFF_length]

theorem colEstD_length (g : List MRow) : (colEstD g).length = g.length := by
  unfold colEstD
  rw [zipWith3_length]
  · exact colBaseDealerFF_length g
  · rw [colDealerCum_length, colBaseDealerFF_length]
  · rw [colDealerCumAtBase_length, colBaseDealerFF_length]

theorem accumulate_length (g : List MRow) : (accumulate g).length = g.length := by
  rw [accumulate_eq]
  split
  · exact attachEst_length g _ _ _ _ (colTrustCum_length g) (colDealerCum_length g)
      (colTrustCum_length g) (colDealerCum_length g)
  · exact attachEst_length g _ _ _ _ (colTrustCum_length g) (colDealerCum_length g)
      (colEstT_length g) (colEstD_length g)

theorem accumulate_mem (g : List MRow) (e : ERow) (he : e ∈ accumulate g) :
    ∃ r ∈ g, e.code = r.code ∧ e.total_shares = r.total_shares := by
  rw [accumulate_eq] at he
  rcases Decidable.em ((maskNoBase g).all (fun b => b) = true) with h | h
  · rw [if_pos h] at he
    exact attachEst_mem g _ _ _ _ e he
  · rw [if_neg h] at he
    exact attachEst_mem g _ _ _ _ e he

theorem mask_aux (u v : List Int) (hu : ∀ x ∈ u, x = 0) (hv : ∀ x ∈ v, x = 0) :
    (List.zipWith (fun bt bd => bt == (0 : Int) && bd == (0 : Int)) u v).all
      (fun b => b) = true := by
  induction u generalizing v with
  | nil => rfl
  | cons x xs ih =>
    cases v with
    | nil => rfl
    | cons y ys =>
      simp only [List.zipWith_cons_cons, List.all_cons]
      rw [hu x (List.mem_cons_self x xs), hv y (List.mem_cons_self y ys)]
      simp only [beq_self_eq_true, Bool.and_self, Bool.true_and]
      exact ih ys (fun a ha => hu a (List.mem_cons_of_mem x ha))
        (fun a ha => hv a (List.mem_cons_of_mem y ha))

theorem maskNoBase_all (g : List MRow) (ht : ∀ r ∈ g, r.trust_shares_base.getD 0 = 0)
    (hd : ∀ r ∈ g, r.dealer_shares_base.getD 0 = 0) :
    (maskNoBase g).all (fun b => b) = true := by
  unfold maskNoBase
  rw [colBaseTrustFF_eq, colBaseDealerFF_eq]
  refine mask_aux _ _ ?_ ?_
  · intro x hx
    obtain ⟨r, hr, rfl⟩ := List.mem_map.1 hx
    exact ht r hr
  · intro x hx
    obtain ⟨r, hr, rfl⟩ := List.mem_map.1 hx
    exact hd r hr

theorem accumulate_fallback (g : List MRow) (ht : ∀ r ∈ g, r.trust_shares_base.getD 0 = 0)
    (hd : ∀ r ∈ g, r.dealer_shares_base.getD 0 = 0) :
    accumulate g =
      attachEst g (colTrustCum g) (colDealerCum g) (colTrustCum g) (colDealerCum g) := by
  rw [accumulate_eq, if_pos (maskNoBase_all g ht hd)]

/-! Forward fill against the specification-side description. -/

theorem getD_mem {α : Type} (l : List α) (i : Nat) (d : α) (hi : i < l.length) :
    l.getD i d ∈ l := by
  simp [List.getD_eq_getElem?_getD, List.getElem?_eq_getElem hi]

theorem ffillFrom_getD_spec {α : Type} (xs : List (Option α)) (last : Option α) (i : Nat)
    (hi : i < xs.length) :
    (ffillFrom last xs).getD i none =
      match specLastObserved xs i with
      | some v => some v
      | none => last := by
  induction xs generalizing last i with
  | nil => simp at hi
  | cons x xt ih =>
    cases i with
    | zero => cases x <;> simp [ffillFrom, specLastObserved]
    | succ n =>
      have hn : n < xt.length := by simpa using hi
      cases x with
      | some v =>
        rw [show ffillFrom last (some v :: xt) = some v :: ffillFrom (some v) xt from rfl]
        simp only [List.getD_cons_succ]
        rw [ih (some v) n hn]
        cases hspec : specLastObserved xt n <;> simp [specLastObserved, hspec]
      | none =>
        rw [show ffillFrom last (none :: xt) = last :: ffillFrom last xt from rfl]
        simp only [List.getD_cons_succ]
        rw [ih last n hn]
        cases hspec : specLastObserved xt n <;> simp [specLastObserved, hspec]

theorem ffill_getD_spec {α : Type} (xs : List (Option α)) (i : Nat) (hi : i < xs.length) :
    (ffill xs).getD i none = specLastObserved xs i := by
  rw [ffill, ffillFrom_getD_spec xs none i hi]
  cases hspec : specLastObserved xs i <;> simp

/-! Lemmas about `setSnapCols` and `ffillSnap`. -/

theorem setSnapCols_length (g : List SnapRow) (t : List (Option Int)) (q : List (Option ℚ))
    (ht : t.length = g.length) (hq : q.length = g.length) :
    (setSnapCols g t q).length = g.length := by
  induction g generalizing t q with
  | nil => rfl
  | cons r rs ih =>
    cases t with
    | nil => simp at ht
    | cons t0 ts =>
      cases q with
      | nil => simp at hq
      | cons q0 qs =>
        simp only [List.length_cons] at ht hq
        simp [setSnapCols, ih ts qs (by omega) (by omega)]

theorem setSnapCols_getD (g : List SnapRow) (t : List (Option Int)) (q : List (Option ℚ))
    (i : Nat) (hi : i < g.length) (ht : t.length = g.length) (hq : q.length = g.length) :
    (setSnapCols g t q).getD i snap0 =
      { g.getD i snap0 with total_shares := t.getD i none, foreign_ratio := q.getD i none } := by
  induction g generalizing t q i with
  | nil => simp at hi
  | cons r rs ih =>
    cases t with
    | nil => simp at ht
    | cons t0 ts =>
      cases q with
      | nil => simp at hq
      | cons q0 qs =>
        simp only [List.length_cons] at ht hq
        cases i with
        | zero => simp [setSnapCols]
        | succ n =>
          have hn : n < rs.length := by simpa using hi
          simp only [setSnapCols, List.getD_cons_succ]
          exact ih ts qs n hn (by omega) (by omega)

theorem setSnapCols_mem (g : List SnapRow) (t : List (Option Int)) (q : List (Option ℚ))
    (y : SnapRow) (hy : y ∈ setSnapCols g t q) : ∃ r ∈ g, y.code = r.code := by
  induction g generalizing t q with
  | nil => simp [setSnapCols] at hy
  | cons r rs ih =>
    cases t with
    | nil => simp [setSnapCols] at hy
    | cons t0 ts =>
      cases q with
      | nil => simp [setSnapCols] at hy
      | cons q0 qs =>
        rcases List.mem_cons.1 hy with rfl | hy2
        · exact ⟨r, List.mem_cons_self r rs, rfl⟩
        · obtain ⟨r2, hr2, hc⟩ := ih ts qs hy2
          exact ⟨r2, List.mem_cons_of_mem r hr2, hc⟩

theorem ffillSnap_length (g : List SnapRow) : (ffillSnap g).length = g.length := by
  unfold ffillSnap
  rw [setSnapCols_length] <;> simp [ffill_length]

theorem ffillSnap_getD (g : List SnapRow) (i : Nat) (hi : i < g.length) :
    (ffillSnap g).getD i snap0 =
      { g.getD i snap0 with
          total_shares := (ffill (g.map fun r => r.total_shares)).getD i none,
          foreign_ratio := (ffill (g.map fun r => r.foreign_ratio)).getD i none } := by
  unfold ffillSnap
  rw [setSnapCols_getD g _ _ i hi] <;> simp [ffill_length]

/-! Date-window lemma used for the cumulative-sum claims. -/

theorem filter_date_le_take (g : List MRow)
    (hp : List.Pairwise (fun a b => a.date < b.date) g) (i : Nat) (hi : i < g.length) :
    g.filter (fun r => r.date ≤ (g.getD i mrow0).date) = g.take (i + 1) := by
  induction g generalizing i with
  | nil => simp at hi
  | cons x xs ih =>
    have hhead := (List.pairwise_cons.1 hp).1
    have htail := (List.pairwise_cons.1 hp).2
    cases i with
    | zero =>
      simp only [List.getD_cons_zero]
      have h1 : List.filter (fun r => r.date ≤ x.date) xs = [] :=
        List.filter_eq_nil_iff.2 fun r hr => by
          simpa using Nat.not_le.2 (hhead r hr)
      simp [List.filter_cons, h1]
    | succ n =>
      have hn : n < xs.length := by simpa using hi
      simp only [List.getD_cons_succ]
      have hx : x.date ≤ (xs.getD n mrow0).date :=
        Nat.le_of_lt (hhead _ (getD_mem xs n mrow0 hn))
      rw [List.take_succ_cons, List.filter_cons, ih htail n hn]
      simp only [List.getD_eq_getElem?_getD] at hx
      simp [hx]

/-! Lemmas about `lookup`, `diffPeriods` and `addAll`. -/

theorem lookup_map_pair {β : Type} (ws : List Nat) (F : Nat → β) (w : Nat) (hw : w ∈ ws) :
    (ws.map fun k => (k, F k)).lookup w = some (F w) := by
  induction ws with
  | nil => simp at hw
  | cons k kt ih =>
    by_cases hwk : w = k
    · subst hwk
      simp [List.lookup]
    · have hmem : w ∈ kt := (List.mem_cons.1 hw).resolve_left hwk
      have hbeq : (w == k) = false := by simpa using hwk
      simp [List.lookup, hbeq, ih hmem]

theorem diffPeriods_getD (w : Nat) (xs : List ℚ) (i : Nat) (hi : i < xs.length) :
    (diffPeriods w xs).getD i none =
      if w ≤ i then some (xs.getD i 0 - xs.getD (i - w) 0) else none := by
  unfold diffPeriods
  rw [mapIdxFrom_getD _ 0 xs i hi none 0]
  simp

theorem addAll_length (ws : List Nat) (g : List RRow) : (addAll ws g).length = g.length := by
  simp only [addAll]
  rw [mapIdxFrom_length]

theorem addAll_map_row (ws : List Nat) (g : List RRow) :
    (addAll ws g).map (fun y => y.row) = g := by
  simp only [addAll]
  rw [map_mapIdxFrom]
  exact (mapIdxFrom_const (fun a => a) 0 g).trans (List.map_id g)

theorem addAll_getD (ws : List Nat) (g : List RRow) (i : Nat) (hi : i < g.length) :
    (addAll ws g).getD i crow0 =
      ⟨g.getD i rrow0,
        ws.map fun w =>
          (w, (diffPeriods w (g.map fun r => r.three_inst_ratio_est)).getD i none)⟩ := by
  simp only [addAll]
  rw [mapIdxFrom_getD _ 0 g i hi crow0 rrow0]
  simp only [Nat.zero_add]
  congr 1
  rw [List.map_map]
  rfl

theorem addAll_mem (ws : List Nat) (g : List RRow) (y : CRow) (hy : y ∈ addAll ws g) :
    ∃ r ∈ g, y.row.code = r.code := by
  simp only [addAll] at hy
  obtain ⟨i, a, ha, rfl⟩ := mapIdxFrom_mem _ 0 g y hy
  exact ⟨a, ha, rfl⟩

/-! Lemmas about the two merges and the denominator fill. -/

theorem mergeFMRow_code (fm : List SnapRow) (f : FlowRow) (m : MRow)
    (hm : m ∈ mergeFMRow fm f) : m.code = f.code := by
  unfold mergeFMRow at hm
  dsimp only at hm
  split at hm
  · rcases List.mem_singleton.1 hm with rfl
    rfl
  · rw [List.mem_map] at hm
    obtain ⟨s, _, rfl⟩ := hm
    rfl

theorem mergeFMRow_ne_nil (fm : List SnapRow) (f : FlowRow) : mergeFMRow fm f ≠ [] := by
  unfold mergeFMRow
  dsimp only
  split
  · simp
  · rename_i he
    intro h0
    exact he (by simp [List.map_eq_nil_iff.1 h0])

theorem mergeFM_total_none (flows : List FlowRow) (fm : List SnapRow) (c : Nat)
    (hfm : ∀ s ∈ fm, s.code ≠ c) :
    ∀ m ∈ mergeFM flows fm, m.code = c → m.total_shares = none := by
  intro m hm hc
  unfold mergeFM at hm
  rw [List.mem_flatMap] at hm
  obtain ⟨f, hf, hmem⟩ := hm
  unfold mergeFMRow at hmem
  dsimp only at hmem
  split at hmem
  · rcases List.mem_singleton.1 hmem with rfl
    rfl
  · rw [List.mem_map] at hmem
    obtain ⟨s, hs, rfl⟩ := hmem
    have hsf := List.mem_filter.1 hs
    have hcode : s.code = f.code := by
      have h2 := hsf.2
      simp only [Bool.and_eq_true, beq_iff_eq] at h2
      exact h2.1.2
    have hsc : s.code = c := by rw [hcode]; exact hc
    exact absurd hsc (hfm s hsf.1)

theorem mergeFM_exists (flows : List FlowRow) (fm : List SnapRow) (f : FlowRow)
    (hf : f ∈ flows) : ∃ m ∈ mergeFM flows fm, m.code = f.code := by
  obtain ⟨m, hm⟩ := List.exists_mem_of_ne_nil _ (mergeFMRow_ne_nil fm f)
  refine ⟨m, ?_, mergeFMRow_code fm f m hm⟩
  unfold mergeFM
  rw [List.mem_flatMap]
  exact ⟨f, hf, hm⟩

theorem mergeBaseRow_fields (bl : List BaseRow) (r : MRow) (m : MRow)
    (hm : m ∈ mergeBaseRow bl r) : m.code = r.code ∧ m.total_shares = r.total_shares := by
  unfold mergeBaseRow at hm
  dsimp only at hm
  split at hm
  · rcases List.mem_singleton.1 hm with rfl
    exact ⟨rfl, rfl⟩
  · rw [List.mem_map] at hm
    obtain ⟨bb, _, rfl⟩ := hm
    exact ⟨rfl, rfl⟩

theorem mergeBaseRow_ne_nil (bl : List BaseRow) (r : MRow) : mergeBaseRow bl r ≠ [] := by
  unfold mergeBaseRow
  dsimp only
  split
  · simp
  · rename_i he
    intro h0
    exact he (by simp [List.map_eq_nil_iff.1 h0])

theorem mergeBase_fields (rows : List MRow) (b : Option (List BaseRow)) :
    ∀ m ∈ mergeBase rows b, ∃ r ∈ rows, m.code = r.code ∧ m.total_shares = r.total_shares := by
  intro m hm
  cases b with
  | none => exact ⟨m, hm, rfl, rfl⟩
  | some bl =>
    by_cases hbe : bl.isEmpty
    · rw [show mergeBase rows (some bl) = if bl.isEmpty then rows
          else rows.flatMap (mergeBaseRow bl) from rfl, if_pos hbe] at hm
      exact ⟨m, hm, rfl, rfl⟩
    · rw [show mergeBase rows (some bl) = if bl.isEmpty then rows
          else rows.flatMap (mergeBaseRow bl) from rfl, if_neg hbe,
        List.mem_flatMap] at hm
      obtain ⟨r, hr, hmem⟩ := hm
      obtain ⟨h1, h2⟩ := mergeBaseRow_fields bl r m hmem
      exact ⟨r, hr, h1, h2⟩

theorem mergeBase_exists (rows : List MRow) (b : Option (List BaseRow)) (r : MRow)
    (hr : r ∈ rows) : ∃ m ∈ mergeBase rows b, m.code = r.code := by
  cases b with
  | none => exact ⟨r, hr, rfl⟩
  | some bl =>
    by_cases hbe : bl.isEmpty
    · refine ⟨r, ?_, rfl⟩
      rw [show mergeBase rows (some bl) = if bl.isEmpty then rows
          else rows.flatMap (mergeBaseRow bl) from rfl, if_pos hbe]
      exact hr
    · obtain ⟨m, hm⟩ := List.exists_mem_of_ne_nil _ (mergeBaseRow_ne_nil bl r)
      refine ⟨m, ?_, (mergeBaseRow_fields bl r m hm).1⟩
      rw [show mergeBase rows (some bl) = if bl.isEmpty then rows
          else rows.flatMap (mergeBaseRow bl) from rfl, if_neg hbe, List.mem_flatMap]
      exact ⟨r, hr, hm⟩

theorem fillTotal_mem (rows : List MRow) (m : MRow) (hm : m ∈ fillTotal rows) :
    ∃ r ∈ rows, m.code = r.code ∧ m.total_shares = some (r.total_shares.getD 0) := by
  unfold fillTotal at hm
  rw [List.mem_map] at hm
  obtain ⟨r, hr, rfl⟩ := hm
  exact ⟨r, hr, rfl, rfl⟩

theorem fillTotal_exists (rows : List MRow) (r : MRow) (hr : r ∈ rows) :
    ∃ m ∈ fillTotal rows, m.code = r.code := by
  unfold fillTotal
  exact ⟨_, List.mem_map_of_mem _ hr, rfl⟩

/-! Claim theorems. -/

/-- C3: for every row emitted by `build_estimated_holdings`, the combined
three-institution ratio is exactly the sum of the (null-filled, otherwise
untouched) official foreign ratio and the two estimated ratios. -/
theorem three_inst_ratio_sum_identity (flows : List FlowRow) (fm : List SnapRow)
    (b : Option (List BaseRow)) :
    ∀ r ∈ build_estimated_holdings flows fm b,
      r.three_inst_ratio_est = r.foreign_ratio + r.trust_ratio_est + r.dealer_ratio_est := by
  intro r hr
  unfold build_estimated_holdings ratioStep at hr
  rw [List.mem_map] at hr
  obtain ⟨e, he, rfl⟩ := hr
  rfl

/-- Witness for C3 at a one-row concrete input. -/
theorem three_inst_ratio_sum_identity_witness :
    ((build_estimated_holdings [⟨2330, 1, 1, 5, 3⟩] [⟨2330, 1, 1, some 100, some 10⟩]
        none).head (by decide)).three_inst_ratio_est
      = ((build_estimated_holdings [⟨2330, 1, 1, 5, 3⟩] [⟨2330, 1, 1, some 100, some 10⟩]
          none).head (by decide)).foreign_ratio
        + ((build_estimated_holdings [⟨2330, 1, 1, 5, 3⟩] [⟨2330, 1, 1, some 100, some 10⟩]
          none).head (by decide)).trust_ratio_est
        + ((build_estimated_holdings [⟨2330, 1, 1, 5, 3⟩] [⟨2330, 1, 1, some 100, some 10⟩]
          none).head (by decide)).dealer_ratio_est :=
  three_inst_ratio_sum_identity _ _ _ _ (List.head_mem _)

/-- C4: for every emitted row, when the filled denominator is strictly
positive the estimated ratios are `shares_est / total_shares * 100`, and
otherwise (missing snapshot filled to 0, zero, or negative) both estimated
ratios are exactly 0 — the division is never performed on a non-positive
denominator. -/
theorem ratio_division_guard (flows : List FlowRow) (fm : List SnapRow)
    (b : Option (List BaseRow)) :
    ∀ r ∈ build_estimated_holdings flows fm b,
      (0 < r.total_shares →
        r.trust_ratio_est = (r.trust_shares_est : ℚ) / (r.total_shares : ℚ) * 100 ∧
        r.dealer_ratio_est = (r.dealer_shares_est : ℚ) / (r.total_shares : ℚ) * 100) ∧
      (r.total_shares ≤ 0 → r.trust_ratio_est = 0 ∧ r.dealer_ratio_est = 0) := by
  intro r hr
  unfold build_estimated_holdings ratioStep at hr
  rw [List.mem_map] at hr
  obtain ⟨e, he, rfl⟩ := hr
  dsimp only
  constructor
  · intro hpos
    rw [if_pos hpos, if_pos hpos]
    exact ⟨rfl, rfl⟩
  · intro hneg
    have hnp : ¬ (0 : Int) < e.total_shares.getD 0 := by omega
    rw [if_neg hnp, if_neg hnp]
    exact ⟨rfl, rfl⟩

/-- Witness for C4 at a one-row concrete input with a positive denominator. -/
theorem ratio_division_guard_witness :
    ((build_estimated_holdings [⟨2330, 1, 1, 5, 3⟩] [⟨2330, 1, 1, some 100, some 10⟩]
        none).head (by decide)).trust_ratio_est
      = (((build_estimated_holdings [⟨2330, 1, 1, 5, 3⟩] [⟨2330, 1, 1, some 100, some 10⟩]
          none).head (by decide)).trust_shares_est : ℚ)
        / (((build_estimated_holdings [⟨2330, 1, 1, 5, 3⟩] [⟨2330, 1, 1, some 100, some 10⟩]
          none).head (by decide)).total_shares : ℚ) * 100
    ∧ ((build_estimated_holdings [⟨2330, 1, 1, 5, 3⟩] [⟨2330, 1, 1, some 100, some 10⟩]
        none).head (by decide)).dealer_ratio_est
      = (((build_estimated_holdings [⟨2330, 1, 1, 5, 3⟩] [⟨2330, 1, 1, some 100, some 10⟩]
          none).head (by decide)).dealer_shares_est : ℚ)
        / (((build_estimated_holdings [⟨2330, 1, 1, 5, 3⟩] [⟨2330, 1, 1, some 100, some 10⟩]
          none).head (by decide)).total_shares : ℚ) * 100 :=
  (ratio_division_guard _ _ _ _ (List.head_mem _)).1 (by decide)

/-- C7 counterexample: two snapshot rows for the same (security, date) pair,
one from each exchange file, are both kept by `build_foreign_master` — the
output has two rows for that key, not one. -/
theorem foreign_master_dup_counterexample :
    ((build_foreign_master [⟨2330, 1, 1, some 100, none⟩] [⟨2330, 2, 1, some 200, none⟩]).filter
      (fun r => r.code == 2330 && r.date == 1)).length = 2 := by decide

/-- C7 amended: `build_foreign_master` performs no deduplication at all —
every input row (from either exchange frame) yields exactly one output row,
so duplicate (security, date) pairs survive into the output. -/
theorem foreign_master_no_dedup (twse tpex : List SnapRow) :
    (build_foreign_master twse tpex).length = twse.length + tpex.length := by
  unfold build_foreign_master
  dsimp only
  split
  · simp
  · rw [groupApply_length _ _ ffillSnap_length,
      (sortBy_perm snapLe (twse ++ tpex)).length_eq, List.length_append]

/-- C8 counterexample: a flow row for a security with no snapshot series at
all is still emitted by `build_estimated_holdings` (with zero ratios), not
withheld from the output. -/
theorem missing_snapshot_emitted_counterexample :
    ((build_estimated_holdings [⟨1101, 1, 1, 5, 3⟩] [] none).filter
      (fun r => r.code == 1101)).length = 1 := by decide

/-- C8 amended: for a security that has flow rows but no snapshot row at
all, `build_estimated_holdings` still emits that security's rows, with the
filled denominator 0 and both estimated ratios forced to 0; securities are
never dropped, and every other security is processed by its own group
independently. -/
theorem missing_snapshot_zero_ratios (flows : List FlowRow) (fm : List SnapRow)
    (b : Option (List BaseRow)) (c : Nat) (hfm : ∀ s ∈ fm, s.code ≠ c) :
    (∀ r ∈ build_estimated_holdings flows fm b, r.code = c →
        r.total_shares = 0 ∧ r.trust_ratio_est = 0 ∧ r.dealer_ratio_est = 0) ∧
    ((∃ f ∈ flows, f.code = c) →
        ∃ r ∈ build_estimated_holdings flows fm b, r.code = c) := by
  constructor
  · intro r hr hrc
    unfold build_estimated_holdings ratioStep at hr
    rw [List.mem_map] at hr
    obtain ⟨e, he, rfl⟩ := hr
    have hec : e.code = c := hrc
    have hstep := groupApply_mem (fun x => x.code) accumulate
        (fun g y hy => accumulate_mem g y hy)
        (fillTotal (sortBy mrowLe (mergeBase (mergeFM flows fm) b)))
    obtain ⟨m, hm, hec2, het⟩ := hstep e he
    obtain ⟨m1, hm1, h1c, h1t⟩ := fillTotal_mem _ m hm
    have hm1m : m1 ∈ mergeBase (mergeFM flows fm) b :=
      ((sortBy_perm mrowLe _).mem_iff).1 hm1
    obtain ⟨m0, hm0, h0c, h0t⟩ := mergeBase_fields _ b m1 hm1m
    have hm0c : m0.code = c := by rw [← h0c, ← h1c, ← hec2]; exact hec
    have h0n : m0.total_shares = none := mergeFM_total_none flows fm c hfm m0 hm0 hm0c
    have het0 : e.total_shares = some 0 := by
      rw [het, h1t, h0t, h0n]
      rfl
    have hd0 : e.total_shares.getD 0 = 0 := by rw [het0]; rfl
    have hnp : ¬ (0 : Int) < e.total_shares.getD 0 := by omega
    dsimp only
    rw [if_neg hnp, if_neg hnp]
    exact ⟨hd0, rfl, rfl⟩
  · rintro ⟨f, hf, hfc⟩
    obtain ⟨m, hm, hmc⟩ := mergeFM_exists flows fm f hf
    obtain ⟨m1, hm1, h1c⟩ := mergeBase_exists (mergeFM flows fm) b m hm
    have hm1s : m1 ∈ sortBy mrowLe (mergeBase (mergeFM flows fm) b) :=
      ((sortBy_perm mrowLe _).mem_iff).2 hm1
    obtain ⟨m2, hm2, h2c⟩ := fillTotal_exists _ m1 hm1s
    have hm2c : m2.code = c := by rw [h2c, h1c, hmc, hfc]
    have hstep := groupApply_exists (fun x => x.code) accumulate
        (fun g y hy => accumulate_mem g y hy) accumulate_length
        (fillTotal (sortBy mrowLe (mergeBase (mergeFM flows fm) b))) c
    obtain ⟨e, he, r2, hr2mem, hr2c, hq⟩ := hstep ⟨m2, hm2, hm2c⟩
    unfold build_estimated_holdings ratioStep
    refine ⟨_, List.mem_map_of_mem _ he, ?_⟩
    show e.code = c
    rw [hq.1, hr2c]

/-- Witness for C8's amended theorem at a concrete one-row input: the
security with no snapshot is emitted with denominator 0 and zero ratios. -/
theorem missing_snapshot_zero_ratios_witness :
    ((build_estimated_holdings [⟨1101, 1, 1, 5, 3⟩] [] none).head (by decide)).total_shares = 0
    ∧ ((build_estimated_holdings [⟨1101, 1, 1, 5, 3⟩] [] none).head
        (by decide)).trust_ratio_est = 0
    ∧ ((build_estimated_holdings [⟨1101, 1, 1, 5, 3⟩] [] none).head
        (by decide)).dealer_ratio_est = 0 :=
  (missing_snapshot_zero_ratios [⟨1101, 1, 1, 5, 3⟩] [] none 1101 (by decide)).1
    _ (List.head_mem _) (by decide)

/-- C9: the whole transform is a pure function of its input collections —
two runs over equal flow, snapshot, baseline and window inputs produce
equal outputs. -/
theorem transform_deterministic (flows flows₂ : List FlowRow) (fm fm₂ : List SnapRow)
    (b b₂ : Option (List BaseRow)) (ws ws₂ : Option (List Nat)) (h1 : flows₂ = flows)
    (h2 : fm₂ = fm) (h3 : b₂ = b) (h4 : ws₂ = ws) :
    run_transform flows fm b ws = run_transform flows₂ fm₂ b₂ ws₂ := by
  subst h1 h2 h3 h4
  rfl

/-- Witness for C9 at a concrete input with the default windows. -/
theorem transform_deterministic_witness :
    run_transform [⟨2330, 1, 1, 5, 3⟩] [⟨2330, 1, 1, some 100, some 10⟩] none none
      = run_transform [⟨2330, 1, 1, 5, 3⟩] [⟨2330, 1, 1, some 100, some 10⟩] none none :=
  transform_deterministic _ _ _ _ _ _ _ _ rfl rfl rfl rfl

/-- C1 (code bug): the spec's anchored scenario — trust flows
1000, -500, 2000, 0, 500 on days 1..5 with a single anchor
`trust_shares_base = 10000` at day 3 — yields estimates
1000, 500, 10000, 0, 500.  The anchor is exact at day 3, but the claimed
forward-fill of the anchor does not happen: day 4 should be 10000 and day 5
should be 10500, while the code emits 0 and 500, because line 82's
`fillna(0.0)` leaves line 85's `ffill()` nothing to fill. -/
theorem anchor_forwardfill_bug_eval :
    (build_estimated_holdings
        [⟨2330, 1, 1, 1000, 0⟩, ⟨2330, 1, 2, -500, 0⟩, ⟨2330, 1, 3, 2000, 0⟩,
          ⟨2330, 1, 4, 0, 0⟩, ⟨2330, 1, 5, 500, 0⟩]
        [⟨2330, 1, 1, some 100000, some 10⟩, ⟨2330, 1, 2, some 100000, some 10⟩,
          ⟨2330, 1, 3, some 100000, some 10⟩, ⟨2330, 1, 4, some 100000, some 10⟩,
          ⟨2330, 1, 5, some 100000, some 10⟩]
        (some [⟨2330, 3, some 10000, none⟩])).map (fun r => r.trust_shares_est)
      = [1000, 500, 10000, 0, 500] := by decide

/-- C2: for a security group with no baseline anchor rows at all (every base
field null) and strictly increasing dates, `accumulate` emits at every
position the plain cumulative sum of the group's net flows over rows dated
at or before that position's date, for both trust and dealer. -/
theorem accumulate_no_anchor_cumsum (g : List MRow)
    (hb : ∀ r ∈ g, r.trust_shares_base = none ∧ r.dealer_shares_base = none)
    (hd : List.Pairwise (fun a b => a.date < b.date) g) (i : Nat) (hi : i < g.length) :
    ((accumulate g).map (fun e => e.trust_shares_est)).getD i 0
        = ((g.filter (fun r => r.date ≤ (g.getD i mrow0).date)).map
            (fun r => r.trust_net)).sum
    ∧ ((accumulate g).map (fun e => e.dealer_shares_est)).getD i 0
        = ((g.filter (fun r => r.date ≤ (g.getD i mrow0).date)).map
            (fun r => r.dealer_net)).sum := by
  have ht : ∀ r ∈ g, r.trust_shares_base.getD 0 = 0 := fun r hr => by rw [(hb r hr).1]; rfl
  have hdl : ∀ r ∈ g, r.dealer_shares_base.getD 0 = 0 := fun r hr => by rw [(hb r hr).2]; rfl
  have hacc := accumulate_fallback g ht hdl
  have hmt : (accumulate g).map (fun e => e.trust_shares_est) = colTrustCum g := by
    rw [hacc]
    exact attachEst_map_trust_est g _ _ _ _ (colTrustCum_length g) (colDealerCum_length g)
      (colTrustCum_length g) (colDealerCum_length g)
  have hmd : (accumulate g).map (fun e => e.dealer_shares_est) = colDealerCum g := by
    rw [hacc]
    exact attachEst_map_dealer_est g _ _ _ _ (colTrustCum_length g) (colDealerCum_length g)
      (colTrustCum_length g) (colDealerCum_length g)
  rw [filter_date_le_take g hd i hi, hmt, hmd]
  constructor
  · unfold colTrustCum cumsum
    rw [cumsumFrom_getD 0 _ i (by simpa using hi) 0, ← List.map_take]
    simp
  · unfold colDealerCum cumsum
    rw [cumsumFrom_getD 0 _ i (by simpa using hi) 0, ← List.map_take]
    simp

/-- Witness for C2 on a two-row anchor-free group. -/
theorem accumulate_no_anchor_cumsum_witness :
    ((accumulate [⟨2330, 1, 1, 1000, 7, none, none, none, none⟩,
        ⟨2330, 1, 2, -500, 8, none, none, none, none⟩]).map
        (fun e => e.trust_shares_est)).getD 1 0
      = ((([⟨2330, 1, 1, 1000, 7, none, none, none, none⟩,
            ⟨2330, 1, 2, -500, 8, none, none, none, none⟩] : List MRow).filter
          (fun r => r.date ≤ (([⟨2330, 1, 1, 1000, 7, none, none, none, none⟩,
            ⟨2330, 1, 2, -500, 8, none, none, none, none⟩] : List MRow).getD 1
              mrow0).date)).map (fun r => r.trust_net)).sum
    ∧ ((accumulate [⟨2330, 1, 1, 1000, 7, none, none, none, none⟩,
        ⟨2330, 1, 2, -500, 8, none, none, none, none⟩]).map
        (fun e => e.dealer_shares_est)).getD 1 0
      = ((([⟨2330, 1, 1, 1000, 7, none, none, none, none⟩,
            ⟨2330, 1, 2, -500, 8, none, none, none, none⟩] : List MRow).filter
          (fun r => r.date ≤ (([⟨2330, 1, 1, 1000, 7, none, none, none, none⟩,
            ⟨2330, 1, 2, -500, 8, none, none, none, none⟩] : List MRow).getD 1
              mrow0).date)).map (fun r => r.dealer_net)).sum :=
  accumulate_no_anchor_cumsum _ (by decide) (by decide) 1 (by decide)

/-- C10: a security group whose baseline entries carry only the value 0 (or
are null) for both classes is treated exactly as a group with no anchors:
the fallback replaces both estimate columns by the plain cumulative sums,
identical to what `accumulate` computes on the group with its baseline
columns erased — a genuinely zero-valued anchor is never honored. -/
theorem zero_anchor_fallback (g : List MRow)
    (ht : ∀ r ∈ g, r.trust_shares_base.getD 0 = 0)
    (hdl : ∀ r ∈ g, r.dealer_shares_base.getD 0 = 0) :
    (accumulate g).map (fun e => e.trust_shares_est) = cumsum (g.map fun r => r.trust_net)
    ∧ (accumulate g).map (fun e => e.dealer_shares_est)
        = cumsum (g.map fun r => r.dealer_net)
    ∧ (accumulate g).map (fun e => e.trust_shares_est)
        = (accumulate (g.map clearBase)).map (fun e => e.trust_shares_est)
    ∧ (accumulate g).map (fun e => e.dealer_shares_est)
        = (accumulate (g.map clearBase)).map (fun e => e.dealer_shares_est) := by
  have hmt : ∀ h : List MRow, (∀ r ∈ h, r.trust_shares_base.getD 0 = 0) →
      (∀ r ∈ h, r.dealer_shares_base.getD 0 = 0) →
      (accumulate h).map (fun e => e.trust_shares_est) = cumsum (h.map fun r => r.trust_net)
      ∧ (accumulate h).map (fun e => e.dealer_shares_est)
          = cumsum (h.map fun r => r.dealer_net) := by
    intro h h1 h2
    have hacc := accumulate_fallback h h1 h2
    constructor
    · rw [hacc]
      exact attachEst_map_trust_est h _ _ _ _ (colTrustCum_length h) (colDealerCum_length h)
        (colTrustCum_length h) (colDealerCum_length h)
    · rw [hacc]
      exact attachEst_map_dealer_est h _ _ _ _ (colTrustCum_length h) (colDealerCum_length h)
        (colTrustCum_length h) (colDealerCum_length h)
  have hg := hmt g ht hdl
  have hc := hmt (g.map clearBase)
    (fun r hr => by
      obtain ⟨r0, _, rfl⟩ := List.mem_map.1 hr
      rfl)
    (fun r hr => by
      obtain ⟨r0, _, rfl⟩ := List.mem_map.1 hr
      rfl)
  have hnt : (g.map clearBase).map (fun r => r.trust_net) = g.map (fun r => r.trust_net) := by
    rw [List.map_map]
    exact List.map_congr_left fun a _ => rfl
  have hnd : (g.map clearBase).map (fun r => r.dealer_net)
      = g.map (fun r => r.dealer_net) := by
    rw [List.map_map]
    exact List.map_congr_left fun a _ => rfl
  refine ⟨hg.1, hg.2, ?_, ?_⟩
  · rw [hg.1, hc.1, hnt]
  · rw [hg.2, hc.2, hnd]

/-- Witness for C10 on a one-row group with an explicit zero anchor. -/
theorem zero_anchor_fallback_witness :
    (accumulate [⟨2330, 1, 1, 5, 3, none, none, some 0, some 0⟩]).map
        (fun e => e.trust_shares_est)
      = cumsum (([⟨2330, 1, 1, 5, 3, none, none, some 0, some 0⟩] : List MRow).map
          fun r => r.trust_net)
    ∧ (accumulate [⟨2330, 1, 1, 5, 3, none, none, some 0, some 0⟩]).map
        (fun e => e.dealer_shares_est)
      = cumsum (([⟨2330, 1, 1, 5, 3, none, none, some 0, some 0⟩] : List MRow).map
          fun r => r.dealer_net)
    ∧ (accumulate [⟨2330, 1, 1, 5, 3, none, none, some 0, some 0⟩]).map
        (fun e => e.trust_shares_est)
      = (accumulate (([⟨2330, 1, 1, 5, 3, none, none, some 0, some 0⟩] : List MRow).map
          clearBase)).map (fun e => e.trust_shares_est)
    ∧ (accumulate [⟨2330, 1, 1, 5, 3, none, none, some 0, some 0⟩]).map
        (fun e => e.dealer_shares_est)
      = (accumulate (([⟨2330, 1, 1, 5, 3, none, none, some 0, some 0⟩] : List MRow).map
          clearBase)).map (fun e => e.dealer_shares_est) :=
  zero_anchor_fallback _ (by decide) (by decide)

/-- C5: in the output of `add_change_metrics`, for every security, every
configured window `w` (a `none` windows argument selects the default
`settings_windows = [5, 20, 60, 120]`), and every position `i` within that
security's own ordered rows, the emitted change value for `w` equals
`three_inst_ratio_est[i] - three_inst_ratio_est[i-w]` when `w ≤ i` and is
null when `i < w`; the offset indexes only that security's rows. -/
theorem change_metrics_positional (m : List RRow) (wso : Option (List Nat)) (c w i : Nat)
    (hw : w ∈ wso.getD settings_windows)
    (hi : i < ((add_change_metrics m wso).filter (fun y => y.row.code == c)).length) :
    (((add_change_metrics m wso).filter
        (fun y => y.row.code == c)).getD i crow0).changes.lookup w
      = some (if w ≤ i then
          some ((((add_change_metrics m wso).filter (fun y => y.row.code == c)).map
              (fun y => y.row.three_inst_ratio_est)).getD i 0
            - (((add_change_metrics m wso).filter (fun y => y.row.code == c)).map
              (fun y => y.row.three_inst_ratio_est)).getD (i - w) 0)
        else none) := by
  have hseq : (add_change_metrics m wso).filter (fun y => y.row.code == c)
      = addAll (wso.getD settings_windows)
          ((sortBy (fun a b => keyLe a.code a.date b.code b.date) m).filter
            (fun r => r.code == c)) := by
    unfold add_change_metrics
    exact groupApply_filter (fun r => r.code) (fun y => y.row.code) _
      (fun g y hy => addAll_mem _ g y hy) rfl _ c
  rw [hseq] at hi ⊢
  have hlen : i < ((sortBy (fun a b => keyLe a.code a.date b.code b.date) m).filter
      (fun r => r.code == c)).length := by
    rw [addAll_length] at hi
    exact hi
  rw [addAll_getD _ _ i hlen]
  dsimp only
  rw [lookup_map_pair _ _ w hw, diffPeriods_getD w _ i (by simpa using hlen)]
  have hmap : (addAll (wso.getD settings_windows)
      ((sortBy (fun a b => keyLe a.code a.date b.code b.date) m).filter
        (fun r => r.code == c))).map (fun y => y.row.three_inst_ratio_est)
      = ((sortBy (fun a b => keyLe a.code a.date b.code b.date) m).filter
        (fun r => r.code == c)).map (fun r => r.three_inst_ratio_est) := by
    conv_lhs => rw [show (fun y : CRow => y.row.three_inst_ratio_est)
      = (fun r : RRow => r.three_inst_ratio_est) ∘ (fun y : CRow => y.row) from rfl]
    rw [← List.map_map, addAll_map_row]
  rw [hmap]

/-- Witness for C5 on a two-row single-security input with window 1. -/
theorem change_metrics_positional_witness :
    (((add_change_metrics
        [⟨2330, 1, 1, 0, 0, 100, 10, none, none, 0, 0, 0, 0, 11⟩,
          ⟨2330, 1, 2, 0, 0, 100, 10, none, none, 0, 0, 0, 0, 13⟩] (some [1])).filter
        (fun y => y.row.code == 2330)).getD 1 crow0).changes.lookup 1
      = some (if 1 ≤ 1 then
          some ((((add_change_metrics
              [⟨2330, 1, 1, 0, 0, 100, 10, none, none, 0, 0, 0, 0, 11⟩,
                ⟨2330, 1, 2, 0, 0, 100, 10, none, none, 0, 0, 0, 0, 13⟩]
              (some [1])).filter (fun y => y.row.code == 2330)).map
              (fun y => y.row.three_inst_ratio_est)).getD 1 0
            - (((add_change_metrics
              [⟨2330, 1, 1, 0, 0, 100, 10, none, none, 0, 0, 0, 0, 11⟩,
                ⟨2330, 1, 2, 0, 0, 100, 10, none, none, 0, 0, 0, 0, 13⟩]
              (some [1])).filter (fun y => y.row.code == 2330)).map
              (fun y => y.row.three_inst_ratio_est)).getD (1 - 1) 0)
        else none) :=
  change_metrics_positional _ (some [1]) 2330 1 1 (by decide) (by decide)

/-- C6: each output row of `build_foreign_master` carries in `total_shares`
and `foreign_ratio` the most recent non-null observation at or before its
own position within its security's sorted rows — forward fill only, null
before the first observation, never a later value, never another
security's. -/
theorem foreign_master_forward_fill (twse tpex : List SnapRow) (c i : Nat)
    (hi : i < ((build_foreign_master twse tpex).filter (fun r => r.code == c)).length) :
    (((build_foreign_master twse tpex).filter (fun r => r.code == c)).getD i
          snap0).total_shares
      = specLastObserved
          (((sortBy snapLe (twse ++ tpex)).filter (fun r => r.code == c)).map
            (fun r => r.total_shares)) i
    ∧ (((build_foreign_master twse tpex).filter (fun r => r.code == c)).getD i
          snap0).foreign_ratio
      = specLastObserved
          (((sortBy snapLe (twse ++ tpex)).filter (fun r => r.code == c)).map
            (fun r => r.foreign_ratio)) i := by
  by_cases hemp : (twse ++ tpex).isEmpty
  · have h0 : twse ++ tpex = [] := by
      cases h : twse ++ tpex with
      | nil => rfl
      | cons a l => rw [h] at hemp; simp [List.isEmpty] at hemp
    have hb : build_foreign_master twse tpex = twse ++ tpex := by
      unfold build_foreign_master
      dsimp only
      rw [if_pos hemp]
    rw [hb, h0] at hi
    simp at hi
  · have hb : build_foreign_master twse tpex
        = groupApply (fun r => r.code) ffillSnap (sortBy snapLe (twse ++ tpex)) := by
      unfold build_foreign_master
      dsimp only
      rw [if_neg hemp]
    rw [hb] at hi ⊢
    have hseq : (groupApply (fun r => r.code) ffillSnap
        (sortBy snapLe (twse ++ tpex))).filter (fun r => r.code == c)
        = ffillSnap ((sortBy snapLe (twse ++ tpex)).filter (fun r => r.code == c)) :=
      groupApply_filter (fun r => r.code) (fun r => r.code) ffillSnap
        (fun g y hy => setSnapCols_mem g _ _ y hy) rfl _ c
    rw [hseq] at hi ⊢
    have hlen : i < ((sortBy snapLe (twse ++ tpex)).filter (fun r => r.code == c)).length := by
      rw [ffillSnap_length] at hi
      exact hi
    rw [ffillSnap_getD _ i hlen]
    exact ⟨ffill_getD_spec _ i (by simpa using hlen),
      ffill_getD_spec _ i (by simpa using hlen)⟩

/-- Witness for C6: the spec's day-1-snapshot scenario — `total_shares`
observed only at day 1 is carried to day 2. -/
theorem foreign_master_forward_fill_witness :
    (((build_foreign_master [⟨2330, 1, 1, some 1000, some 40⟩,
        ⟨2330, 1, 2, none, some 41⟩] []).filter (fun r => r.code == 2330)).getD 1
          snap0).total_shares
      = specLastObserved
          (((sortBy snapLe ([⟨2330, 1, 1, some 1000, some 40⟩,
              ⟨2330, 1, 2, none, some 41⟩] ++ [])).filter (fun r => r.code == 2330)).map
            (fun r => r.total_shares)) 1
    ∧ (((build_foreign_master [⟨2330, 1, 1, some 1000, some 40⟩,
        ⟨2330, 1, 2, none, some 41⟩] []).filter (fun r => r.code == 2330)).getD 1
          snap0).foreign_ratio
      = specLastObserved
          (((sortBy snapLe ([⟨2330, 1, 1, some 1000, some 40⟩,
              ⟨2330, 1, 2, none, some 41⟩] ++ [])).filter (fun r => r.code == 2330)).map
            (fun r => r.foreign_ratio)) 1 :=
  foreign_master_forward_fill [⟨2330, 1, 1, some 1000, some 40⟩,
    ⟨2330, 1, 2, none, some 41⟩] [] 2330 1 (by decide)

end Stocker
